import Mathlib

/-!
Verification of the hydrogen-market data-cleaning pipeline
(`scripts/data_cleaning.py`, `scripts/Price_Analysis.py`).

Tables are modelled as a header (list of column names) together with a list
of rows; each cell holds a string, a rational number (the model of a Python
float), or a missing marker (the model of NaN).  Each pandas operation used
by the cleaning scripts is translated into an executable Lean function over
this model; fallible operations (column lookups that raise `KeyError`,
`astype(float)` conversions that raise `ValueError`, mismatched column
assignments) return `Except String`.
-/

set_option maxHeartbeats 1000000

namespace HydroClean

/-- A table cell: a string, a number (Python float modelled as `Rat`),
or a missing value (NaN). -/
inductive Val where
  | str (s : String)
  | num (q : Rat)
  | missing
deriving DecidableEq, Repr

/-- `true` exactly on the missing marker (NaN). -/
def Val.isMissing : Val → Bool
  | .missing => true
  | _ => false

/-- Cell of a row at column index `j`; out-of-range reads are missing
(a rectangular table never takes this branch). -/
def cellD (r : List Val) (j : Nat) : Val := r.getD j Val.missing

/-- An in-memory table: ordered column names plus ordered rows of cells,
the model of a `pandas.DataFrame`. -/
structure Table where
  header : List String
  rows : List (List Val)
deriving DecidableEq, Repr

/-- Rectangularity: every row has exactly one cell per header entry. -/
def Table.WF (t : Table) : Prop := ∀ r ∈ t.rows, r.length = t.header.length

instance (t : Table) : Decidable t.WF := by
  unfold Table.WF; infer_instance

/-- Index of a named column (first match), the model of pandas column
resolution; callers check membership first, as pandas raises `KeyError`. -/
def colIdxOf (hdr : List String) (n : String) : Nat := hdr.findIdx (· == n)

/-- The cell of row `r` in the column named `n` (relative to header `hdr`). -/
def fieldD (hdr : List String) (r : List Val) (n : String) : Val :=
  cellD r (colIdxOf hdr n)

/-- Column `j` extracted as a list of cells, the model of `df[col]`. -/
def getColumn (t : Table) (j : Nat) : List Val :=
  t.rows.map (fun r => cellD r j)

/-- Overwrite column `j` of every row with the aligned entries of `col`,
the model of the column assignment `df[col] = series`. -/
def setColumnRows (rows : List (List Val)) (j : Nat) (col : List Val) :
    List (List Val) :=
  List.zipWith (fun r v => r.set j v) rows col

instance {ε α : Type} [DecidableEq ε] [DecidableEq α] :
    DecidableEq (Except ε α) := fun x y =>
  match x, y with
  | .ok a, .ok b =>
    if h : a = b then .isTrue (by rw [h]) else .isFalse (fun hc => h (by injection hc))
  | .error a, .error b =>
    if h : a = b then .isTrue (by rw [h]) else .isFalse (fun hc => h (by injection hc))
  | .ok _, .error _ => .isFalse (fun hc => by injection hc)
  | .error _, .ok _ => .isFalse (fun hc => by injection hc)

/-- `true` on `Except.ok`. -/
def okB : Except String α → Bool
  | .ok _ => true
  | .error _ => false

/-! ### Case-insensitive substring matching

Models `Series.str.contains(pat, case=False, na=False)` for a literal
pattern: both sides are lower-cased and a plain substring search is done. -/

/-- Lower-cased character list of a string. -/
def lowerChars (s : String) : List Char := s.data.map Char.toLower

/-- Plain substring search over character lists. -/
def containsSub : List Char → List Char → Bool
  | needle, [] => needle.isEmpty
  | needle, c :: t => needle.isPrefixOf (c :: t) || containsSub needle t

/-- Case-insensitive "does `s` contain `sub`". -/
def containsCI (s sub : String) : Bool :=
  containsSub (lowerChars sub) (lowerChars s)

/-! ### Row/column filters (`clean_iea_projects`, `clean_europe_datasets`) -/

/-- Row predicate of the substring-exclude filter: the named column holds a
string containing `sub` case-insensitively.  A missing cell (and any
non-string cell, where `.str.contains` yields NaN) gives `false`, the model
of `na=False`. -/
def substrMatch (hdr : List String) (col sub : String) (r : List Val) : Bool :=
  match fieldD hdr r col with
  | .str s => containsCI s sub
  | _ => false

/-- Substring-exclude filter on rows, the model of
`df[~df[col].str.contains(sub, case=False, na=False)]`. -/
def substrExclude (hdr : List String) (col sub : String)
    (rows : List (List Val)) : List (List Val) :=
  rows.filter (fun r => !(substrMatch hdr col sub r))

/-- `true` when every cell of the row is missing. -/
def allMissing (r : List Val) : Bool := r.all Val.isMissing

/-- Drop rows whose cells are all missing, the model of
`df.dropna(how='all')`. -/
def allEmptyDropRows (rows : List (List Val)) : List (List Val) :=
  rows.filter (fun r => !(allMissing r))

/-- Drop rows whose cell in the named column is missing, the model of
`df.dropna(subset=[col])` once the column is known to exist. -/
def requiredFieldDrop (hdr : List String) (col : String)
    (rows : List (List Val)) : List (List Val) :=
  rows.filter (fun r => !((fieldD hdr r col).isMissing))

/-- Keep the entries of `xs` whose positions carry `true` in the mask. -/
def maskKeep : List Bool → List α → List α
  | _, [] => []
  | [], _ :: _ => []
  | b :: bs, x :: xs => if b then x :: maskKeep bs xs else maskKeep bs xs

/-- `true` when some row has a non-missing cell in column `j`. -/
def colPresent (rows : List (List Val)) (j : Nat) : Bool :=
  rows.any (fun r => !(cellD r j).isMissing)

/-- Column mask of `df.dropna(axis=1, how='all')`: keep a column exactly
when some row has a present cell there. -/
def emptyColMask (t : Table) : List Bool :=
  (List.range t.header.length).map (fun j => colPresent t.rows j)

/-- Drop columns whose cells are all missing, the model of
`df.dropna(axis=1, how='all')`. -/
def dropEmptyColsTable (t : Table) : Table :=
  { header := maskKeep (emptyColMask t) t.header
    rows := t.rows.map (maskKeep (emptyColMask t)) }

/-- Core of `clean_europe_datasets`: drop all-empty columns, then all-empty
rows (`df.dropna(axis=1, how='all').dropna(how='all')`). -/
def cleanEuropeCore (t : Table) : Table :=
  let t1 := dropEmptyColsTable t
  { header := t1.header, rows := allEmptyDropRows t1.rows }

/-- Column mask dropping the columns named in `names`: the model of
`df.drop(columns=names, errors='ignore')` (absent names are no-ops). -/
def dropMask (names : List String) (hdr : List String) : List Bool :=
  hdr.map (fun h => !(names.contains h))

/-- Drop the named columns (if present), keeping everything else in order. -/
def dropColsTable (names : List String) (t : Table) : Table :=
  { header := maskKeep (dropMask names t.header) t.header
    rows := t.rows.map (maskKeep (dropMask names t.header)) }

/-- The irrelevant-column list of `clean_iea_projects`
(`columns_to_drop`, including the `Unnamed: 35` … `Unnamed: 39` range). -/
def ieaColsToDrop : List String :=
  ["Capacity_t CO₂ captured/y", "References", "Latitude", "Longitude"] ++
    (List.range 5).map (fun i => "Unnamed: " ++ toString (35 + i))

/-- Row predicate of the confidentiality filter in `clean_iea_projects`. -/
def confMatch (hdr : List String) (r : List Val) : Bool :=
  substrMatch hdr "Project name" "confidential" r

/-- `clean_iea_projects` after loading: drop confidential rows, drop
all-empty rows, drop the `Refs` column, drop the irrelevant columns, and
drop rows missing `Date online`.  Column lookups model pandas `KeyError`. -/
def cleanIEA (t : Table) : Except String Table :=
  if "Project name" ∈ t.header then
    let rows1 := substrExclude t.header "Project name" "confidential" t.rows
    let rows2 := allEmptyDropRows rows1
    let t3 := dropColsTable ["Refs"] { header := t.header, rows := rows2 }
    let t4 := dropColsTable ieaColsToDrop t3
    if "Date online" ∈ t4.header then
      .ok { header := t4.header
            rows := requiredFieldDrop t4.header "Date online" t4.rows }
    else .error "KeyError"
  else .error "KeyError"

/-! ### Value imputer (`impute_cost_values`) -/

/-- Forward fill with a carried last-seen value; the carry is `none` until
a non-missing cell has been seen. -/
def ffillGo : Option Val → List Val → List Val
  | _, [] => []
  | carry, v :: vs =>
    if v.isMissing then
      match carry with
      | some c => c :: ffillGo (some c) vs
      | none => v :: ffillGo none vs
    else v :: ffillGo (some v) vs

/-- Forward fill, the model of `Series.fillna(method='ffill')`. -/
def ffill (xs : List Val) : List Val := ffillGo none xs

/-- Backward fill, the model of `Series.fillna(method='bfill')`. -/
def bfill (xs : List Val) : List Val := (ffillGo none xs.reverse).reverse

/-- The chained `.fillna(method='ffill').fillna(method='bfill')`. -/
def imputeFB (xs : List Val) : List Val := bfill (ffill xs)

/-- The cost-column name of `impute_cost_values`. -/
def valueCol : String := "Value (€/kg)"

/-- `impute_cost_values` after loading: forward-fill then backward-fill
the `Value (€/kg)` column, leaving every other column untouched. -/
def imputeCostValues (t : Table) : Except String Table :=
  if valueCol ∈ t.header then
    let j := colIdxOf t.header valueCol
    .ok { header := t.header
          rows := setColumnRows t.rows j (imputeFB (getColumn t j)) }
  else .error "KeyError"

/-! ### Targeted corrector (`update_refinery_region`) -/

/-- The row mask of `update_refinery_region`:
`(df['year'] == 2030) & (df['technology'] == "Electrolysis") &
(df['status'] == "Operational")`.  A NaN (or type-mismatched) cell compares
unequal, as in pandas. -/
def refineMatch (hdr : List String) (r : List Val) : Bool :=
  (match fieldD hdr r "year" with
   | .num q => q == (2030 : Rat)
   | _ => false) &&
  (match fieldD hdr r "technology" with
   | .str s => s == "Electrolysis"
   | _ => false) &&
  (match fieldD hdr r "status" with
   | .str s => s == "Operational"
   | _ => false)

/-- `update_refinery_region` after loading: set `region` to `"Global"` on
every masked row.  Reading `year`/`technology`/`status` raises `KeyError`
when absent; `df.loc[mask, 'region'] = "Global"` enlarges the frame with a
fresh `region` column when that one is absent. -/
def updateRefineryRegion (t : Table) : Except String Table :=
  if "year" ∈ t.header ∧ "technology" ∈ t.header ∧ "status" ∈ t.header then
    if "region" ∈ t.header then
      .ok { header := t.header
            rows := t.rows.map (fun r =>
              if refineMatch t.header r then
                r.set (colIdxOf t.header "region") (Val.str "Global")
              else r) }
    else
      .ok { header := t.header ++ ["region"]
            rows := t.rows.map (fun r =>
              r ++ [if refineMatch t.header r then Val.str "Global"
                    else Val.missing]) }
  else .error "KeyError"

/-! ### Range-splitting parser (`load_and_clean_data`)

Models
`df[["Min", "Max"]] = df["Min-max (Eur/kg)"].str.replace(",", ".").str.split("-", expand=True)`
followed by `astype(float)` on both new columns. -/

/-- Replace commas by decimal points (`.str.replace(",", ".")`; the
single-character pattern makes this a character map). -/
def commaToDot (cs : List Char) : List Char :=
  cs.map (fun c => if c = ',' then '.' else c)

/-- Split at every dash, the model of Python `s.split("-")`:
`""` gives `[""]`, `"a--b"` gives `["a", "", "b"]`. -/
def splitDash : List Char → List (List Char)
  | [] => [[]]
  | c :: t =>
    match splitDash t with
    | [] => [[]]
    | g :: gs => if c = '-' then [] :: g :: gs else (c :: g) :: gs

/-- The token lists of one range cell after comma normalization. -/
def splitMinMax (s : String) : List String :=
  (splitDash (commaToDot s.data)).map (fun l => String.mk l)

/-- Strip leading and trailing whitespace (Python `float` accepts it). -/
def trimWs (cs : List Char) : List Char :=
  ((cs.dropWhile Char.isWhitespace).reverse.dropWhile Char.isWhitespace).reverse

/-- Numeric value of a digit list, most significant first. -/
def digitsVal (cs : List Char) : Nat :=
  cs.foldl (fun a c => a * 10 + (c.toNat - '0'.toNat)) 0

/-- The model of Python `float(s)` on decimal and scientific notation:
optional sign, integer digits, optional fraction, optional exponent;
`none` models the `ValueError` of a malformed literal. -/
def parseFloat? (s : String) : Option Rat :=
  let cs := trimWs s.data
  let sp := match cs with
    | '+' :: t => ((1 : Int), t)
    | '-' :: t => ((-1 : Int), t)
    | _ => ((1 : Int), cs)
  let ip := sp.2.takeWhile Char.isDigit
  let r1 := sp.2.dropWhile Char.isDigit
  let fp := match r1 with
    | '.' :: t => t.takeWhile Char.isDigit
    | _ => []
  let r2 := match r1 with
    | '.' :: t => t.dropWhile Char.isDigit
    | _ => r1
  if ip.isEmpty && fp.isEmpty then none
  else
    let mant : Int := sp.1 * ((digitsVal ip) * 10 ^ fp.length + digitsVal fp)
    let den : Nat := 10 ^ fp.length
    match r2 with
    | [] => some (mkRat mant den)
    | e :: t =>
      if e = 'e' ∨ e = 'E' then
        let et := match t with
          | '+' :: t2 => (true, t2)
          | '-' :: t2 => (false, t2)
          | _ => (true, t)
        let ed := et.2.takeWhile Char.isDigit
        if ed.isEmpty || !(et.2.dropWhile Char.isDigit).isEmpty then none
        else if et.1 then some (mkRat (mant * 10 ^ digitsVal ed) den)
        else some (mkRat mant (den * 10 ^ digitsVal ed))
      else none

/-- Accumulate the token count of one cell into the running maximum. -/
def widthStep (a : Nat) (v : Val) : Nat :=
  match v with
  | .str s => Nat.max a (splitMinMax s).length
  | _ => a

/-- Number of columns produced by `.str.split("-", expand=True)`: the
maximum token count over the string cells (non-string cells expand to a
row of NaN and contribute nothing; an all-NaN column expands to one
column). -/
def expandWidth (col : List Val) : Nat :=
  col.foldl widthStep 1

/-- `astype(float)` on one expanded cell: `None` becomes NaN, a string
token is parsed with `float`, failure models `ValueError`. -/
def astypeFloat : Option String → Except String Val
  | none => .ok Val.missing
  | some tok =>
    match parseFloat? tok with
    | some q => .ok (Val.num q)
    | none => .error "could not convert string to float"

/-- One row of the two-column assignment: the first token and the optional
second token of a string cell, both converted; a non-string cell yields a
NaN pair. -/
def splitRow : Val → Except String (Val × Val)
  | .str s =>
    match astypeFloat (splitMinMax s).head? with
    | .error e => .error e
    | .ok a =>
      match astypeFloat (splitMinMax s)[1]? with
      | .error e => .error e
      | .ok b => .ok (a, b)
  | _ => .ok (Val.missing, Val.missing)

/-- Convert every cell, stopping at the first conversion error. -/
def mapExcept (f : Val → Except String (Val × Val)) :
    List Val → Except String (List (Val × Val))
  | [] => .ok []
  | v :: vs =>
    match f v with
    | .error e => .error e
    | .ok y =>
      match mapExcept f vs with
      | .error e => .error e
      | .ok ys => .ok (y :: ys)

/-- The whole range-splitting transform on the `Min-max (Eur/kg)` column:
pandas raises (`Columns must be same length as key`) when the expansion
width is not two, otherwise both expanded columns are converted to float. -/
def splitRangeColumn (col : List Val) : Except String (List (Val × Val)) :=
  if expandWidth col = 2 then mapExcept splitRow col
  else .error "Columns must be same length as key"

/-! ### Basic facts about cells and fills -/

/-- No cell of the list is missing. -/
def noMissing (xs : List Val) : Bool := xs.all (fun v => !v.isMissing)

/-- Number of missing cells, the model of `count(missing)`. -/
def countMissing (xs : List Val) : Nat := xs.countP Val.isMissing

theorem isMissing_iff (v : Val) : v.isMissing = true ↔ v = Val.missing := by
  cases v <;> simp [Val.isMissing]

theorem length_ffillGo (xs : List Val) : ∀ c, (ffillGo c xs).length = xs.length := by
  induction xs with
  | nil => intro c; rfl
  | cons v vs ih =>
    intro c
    cases hv : v.isMissing
    · simp [ffillGo, hv, ih]
    · cases c with
      | none => simp [ffillGo, hv, ih]
      | some cv => simp [ffillGo, hv, ih]

theorem length_imputeFB (xs : List Val) : (imputeFB xs).length = xs.length := by
  simp [imputeFB, bfill, ffill, length_ffillGo]

theorem noMissing_iff (xs : List Val) :
    noMissing xs = true ↔ ∀ v ∈ xs, v.isMissing = false := by
  simp [noMissing]

theorem allMissing_iff (xs : List Val) :
    allMissing xs = true ↔ ∀ v ∈ xs, v.isMissing = true := by
  simp [allMissing]

theorem ffillGo_noMissing (xs : List Val) :
    ∀ c : Val, c.isMissing = false → noMissing (ffillGo (some c) xs) = true := by
  induction xs with
  | nil => intro c _; rfl
  | cons v vs ih =>
    intro c hc
    rw [noMissing_iff]
    cases hv : v.isMissing
    · rw [show ffillGo (some c) (v :: vs) = v :: ffillGo (some v) vs from by
        simp [ffillGo, hv]]
      intro x hx
      rcases List.mem_cons.mp hx with h1 | h1
      · rw [h1]; exact hv
      · exact (noMissing_iff _).1 (ih v hv) x h1
    · rw [show ffillGo (some c) (v :: vs) = c :: ffillGo (some c) vs from by
        simp [ffillGo, hv]]
      intro x hx
      rcases List.mem_cons.mp hx with h1 | h1
      · rw [h1]; exact hc
      · exact (noMissing_iff _).1 (ih c hc) x h1

theorem ffillGo_allMissing (xs : List Val) (h : allMissing xs = true) :
    ffillGo none xs = xs := by
  induction xs with
  | nil => rfl
  | cons v vs ih =>
    have h2 := (allMissing_iff _).1 h
    have hv : v.isMissing = true := h2 v (List.mem_cons_self _ _)
    have hvs : allMissing vs = true :=
      (allMissing_iff _).2 (fun x hx => h2 x (List.mem_cons_of_mem _ hx))
    simp [ffillGo, hv, ih hvs]

theorem allMissing_reverse (xs : List Val) :
    allMissing xs.reverse = allMissing xs := by
  simp [allMissing, List.all_reverse]

theorem noMissing_reverse (xs : List Val) :
    noMissing xs.reverse = noMissing xs := by
  simp [noMissing, List.all_reverse]

theorem ffill_split (xs : List Val) (h : allMissing xs = false) :
    ∃ k ys, ffill xs = List.replicate k Val.missing ++ ys ∧ ys ≠ [] ∧
      noMissing ys = true := by
  induction xs with
  | nil => simp [allMissing] at h
  | cons v vs ih =>
    cases hv : v.isMissing
    · refine ⟨0, v :: ffillGo (some v) vs, ?_, by simp, ?_⟩
      · simp [ffill, ffillGo, hv]
      · rw [noMissing_iff]
        intro x hx
        rcases List.mem_cons.mp hx with h1 | h1
        · rw [h1]; exact hv
        · exact (noMissing_iff _).1 (ffillGo_noMissing vs v hv) x h1
    · have hvs : allMissing vs = false := by
        cases hvs2 : allMissing vs
        · rfl
        · exfalso
          have h3 := (allMissing_iff _).1 hvs2
          have hall : allMissing (v :: vs) = true :=
            (allMissing_iff _).2 (fun x hx => by
              rcases List.mem_cons.mp hx with h1 | h1
              · rw [h1]; exact hv
              · exact h3 x h1)
          rw [hall] at h; cases h
      obtain ⟨k, ys, h1, h2, h3⟩ := ih hvs
      refine ⟨k + 1, ys, ?_, h2, h3⟩
      have hveq : v = Val.missing := (isMissing_iff v).1 hv
      have hstep : ffill (v :: vs) = v :: ffill vs := by
        simp [ffill, ffillGo, hv]
      rw [hstep, h1, List.replicate_succ, hveq, List.cons_append]

theorem ffillGo_front_noMissing (as bs : List Val) (ha : as ≠ [])
    (hnm : noMissing as = true) :
    noMissing (ffillGo none (as ++ bs)) = true := by
  cases as with
  | nil => exact absurd rfl ha
  | cons a as2 =>
    have hA : a.isMissing = false :=
      (noMissing_iff _).1 hnm a (List.mem_cons_self _ _)
    rw [List.cons_append,
      show ffillGo none (a :: (as2 ++ bs)) = a :: ffillGo (some a) (as2 ++ bs)
        from by simp [ffillGo, hA]]
    rw [noMissing_iff]
    intro x hx
    rcases List.mem_cons.mp hx with h1 | h1
    · rw [h1]; exact hA
    · exact (noMissing_iff _).1 (ffillGo_noMissing _ a hA) x h1

theorem imputeFB_total (xs : List Val) (h : allMissing xs = false) :
    noMissing (imputeFB xs) = true := by
  obtain ⟨k, ys, h1, h2, h3⟩ := ffill_split xs h
  unfold imputeFB bfill
  rw [h1, List.reverse_append, List.reverse_replicate, noMissing_reverse]
  exact ffillGo_front_noMissing ys.reverse (List.replicate k Val.missing)
    (by simpa using h2) (by rw [noMissing_reverse]; exact h3)

theorem imputeFB_vacuous (xs : List Val) (h : allMissing xs = true) :
    imputeFB xs = xs := by
  unfold imputeFB bfill ffill
  rw [ffillGo_allMissing xs h,
    ffillGo_allMissing xs.reverse (by rw [allMissing_reverse]; exact h),
    List.reverse_reverse]

theorem ffillGo_mem (xs : List Val) :
    ∀ c v, v ∈ ffillGo c xs → v ∈ xs ∨ c = some v := by
  induction xs with
  | nil => intro c v h; simp [ffillGo] at h
  | cons w ws ih =>
    intro c v h
    cases hw : w.isMissing
    · rw [show ffillGo c (w :: ws) = w :: ffillGo (some w) ws from by
        simp [ffillGo, hw]] at h
      rcases List.mem_cons.mp h with h1 | h1
      · exact Or.inl (h1 ▸ List.mem_cons_self _ _)
      · rcases ih (some w) v h1 with h2 | h2
        · exact Or.inl (List.mem_cons_of_mem _ h2)
        · exact Or.inl (by rw [Option.some.inj h2] at *; exact List.mem_cons_self _ _)
    · cases c with
      | some cv =>
        rw [show ffillGo (some cv) (w :: ws) = cv :: ffillGo (some cv) ws from by
          simp [ffillGo, hw]] at h
        rcases List.mem_cons.mp h with h1 | h1
        · exact Or.inr (by rw [h1])
        · rcases ih (some cv) v h1 with h2 | h2
          · exact Or.inl (List.mem_cons_of_mem _ h2)
          · exact Or.inr h2
      | none =>
        rw [show ffillGo none (w :: ws) = w :: ffillGo none ws from by
          simp [ffillGo, hw]] at h
        rcases List.mem_cons.mp h with h1 | h1
        · exact Or.inl (h1 ▸ List.mem_cons_self _ _)
        · rcases ih none v h1 with h2 | h2
          · exact Or.inl (List.mem_cons_of_mem _ h2)
          · cases h2

theorem imputeFB_mem (xs : List Val) (v : Val) (h : v ∈ imputeFB xs) : v ∈ xs := by
  unfold imputeFB bfill ffill at h
  have h1 : v ∈ ffillGo none (ffillGo none xs).reverse := List.mem_reverse.mp h
  rcases ffillGo_mem _ _ _ h1 with h2 | h2
  · have h3 : v ∈ ffillGo none xs := List.mem_reverse.mp h2
    rcases ffillGo_mem _ _ _ h3 with h4 | h4
    · exact h4
    · cases h4
  · cases h2

theorem noMissing_countMissing (xs : List Val) (h : noMissing xs = true) :
    countMissing xs = 0 := by
  unfold countMissing
  rw [List.countP_eq_zero]
  intro a ha
  have h2 := List.all_eq_true.mp h a ha
  simp at h2
  simp [h2]

/-! ### Cell access after column assignment -/

theorem cellD_set_self : ∀ (r : List Val) (j : Nat) (v : Val), j < r.length →
    cellD (r.set j v) j = v := by
  intro r
  induction r with
  | nil => intro j v h; simp at h
  | cons a as ih =>
    intro j v h
    cases j with
    | zero => rfl
    | succ n =>
      show cellD (a :: as.set n v) (n + 1) = v
      rw [show cellD (a :: as.set n v) (n + 1) = cellD (as.set n v) n from by
        simp [cellD, List.getD_cons_succ]]
      exact ih n v (Nat.lt_of_succ_lt_succ h)

theorem cellD_set_ne : ∀ (r : List Val) (j k : Nat) (v : Val), j ≠ k →
    cellD (r.set j v) k = cellD r k := by
  intro r
  induction r with
  | nil => intro j k v _; rfl
  | cons a as ih =>
    intro j k v hjk
    cases j with
    | zero =>
      cases k with
      | zero => exact absurd rfl hjk
      | succ m => simp [cellD, List.getD_cons_succ]
    | succ n =>
      cases k with
      | zero => simp [cellD, List.getD_cons_zero]
      | succ m =>
        show cellD (a :: as.set n v) (m + 1) = cellD (a :: as) (m + 1)
        simp only [cellD, List.getD_cons_succ]
        exact ih n m v (fun h => hjk (congrArg Nat.succ h))

theorem map_cellD_zip_set (j : Nat) :
    ∀ (rows : List (List Val)) (col : List Val), col.length = rows.length →
      (∀ r ∈ rows, j < r.length) →
      (List.zipWith (fun r v => r.set j v) rows col).map (fun r => cellD r j)
        = col := by
  intro rows
  induction rows with
  | nil =>
    intro col hlen _
    simp at hlen
    simp [hlen]
  | cons r rs ih =>
    intro col hlen hj
    cases col with
    | nil => simp at hlen
    | cons v vs =>
      simp only [List.zipWith_cons_cons, List.map_cons]
      rw [cellD_set_self r j v (hj r (List.mem_cons_self _ _)),
        ih vs (by simpa using hlen) (fun x hx => hj x (List.mem_cons_of_mem _ hx))]

theorem colIdxOf_lt (hdr : List String) (n : String) (h : n ∈ hdr) :
    colIdxOf hdr n < hdr.length :=
  List.findIdx_lt_length.mpr ⟨n, h, by simp⟩

theorem imputeCostValues_ok (t t2 : Table) (hok : imputeCostValues t = .ok t2) :
    valueCol ∈ t.header ∧
      t2 = ⟨t.header, setColumnRows t.rows (colIdxOf t.header valueCol)
        (imputeFB (getColumn t (colIdxOf t.header valueCol)))⟩ := by
  by_cases hmem : valueCol ∈ t.header
  · refine ⟨hmem, ?_⟩
    simp [imputeCostValues, hmem] at hok
    exact hok.symm
  · simp [imputeCostValues, hmem] at hok

theorem getColumn_impute (t : Table) (hwf : t.WF)
    (hmem : valueCol ∈ t.header) :
    getColumn ⟨t.header, setColumnRows t.rows (colIdxOf t.header valueCol)
        (imputeFB (getColumn t (colIdxOf t.header valueCol)))⟩
        (colIdxOf t.header valueCol)
      = imputeFB (getColumn t (colIdxOf t.header valueCol)) := by
  have hjlt := colIdxOf_lt t.header valueCol hmem
  show (List.zipWith _ t.rows _).map _ = _
  apply map_cellD_zip_set
  · rw [length_imputeFB]
    simp [getColumn]
  · intro r hr
    rw [hwf r hr]
    exact hjlt

/-- C1: after `impute_cost_values`, the `Value (€/kg)` column has no
missing cells when it had at least one non-missing cell before; when every
cell was missing before, the column is returned unchanged (all still
missing, nothing fabricated). -/
theorem C1_impute_totality_vacuity (t t2 : Table) (hwf : t.WF)
    (hok : imputeCostValues t = .ok t2) :
    (allMissing (getColumn t (colIdxOf t.header valueCol)) = false →
      countMissing (getColumn t2 (colIdxOf t2.header valueCol)) = 0) ∧
    (allMissing (getColumn t (colIdxOf t.header valueCol)) = true →
      getColumn t2 (colIdxOf t2.header valueCol)
        = getColumn t (colIdxOf t.header valueCol)) := by
  obtain ⟨hmem, ht2⟩ := imputeCostValues_ok t t2 hok
  subst ht2
  have hcol := getColumn_impute t hwf hmem
  constructor
  · intro h
    rw [show colIdxOf (Table.mk t.header _).header valueCol
      = colIdxOf t.header valueCol from rfl, hcol]
    exact noMissing_countMissing _ (imputeFB_total _ h)
  · intro h
    rw [show colIdxOf (Table.mk t.header _).header valueCol
      = colIdxOf t.header valueCol from rfl, hcol]
    exact imputeFB_vacuous _ h

/-- Example production-cost table whose cost column has a gap. -/
def exT1 : Table :=
  ⟨["Country", valueCol],
   [[Val.str "DE", Val.missing],
    [Val.str "FR", Val.num 3],
    [Val.str "PL", Val.missing]]⟩

/-- The imputed version of `exT1`. -/
def exT1res : Table :=
  ⟨["Country", valueCol],
   [[Val.str "DE", Val.num 3],
    [Val.str "FR", Val.num 3],
    [Val.str "PL", Val.num 3]]⟩

/-- C1 witness: on a concrete table whose cost column is
`[NaN, 3, NaN]`, imputation leaves zero missing cells. -/
theorem C1_witness :
    countMissing (getColumn exT1res (colIdxOf exT1res.header valueCol)) = 0 :=
  (C1_impute_totality_vacuity exT1 exT1res (by decide) (by decide)).1 (by decide)

/-- C10: `impute_cost_values` modifies only the `Value (€/kg)` column: the
header, the number and order of rows, each row's length, and every cell
outside that column are identical to the input. -/
theorem C10_impute_frame (t t2 : Table) (hwf : t.WF)
    (hok : imputeCostValues t = .ok t2) :
    t2.header = t.header ∧ t2.rows.length = t.rows.length ∧
    ∀ (i : Nat) (r r2 : List Val), t.rows[i]? = some r → t2.rows[i]? = some r2 →
      r2.length = r.length ∧
      ∀ k, k ≠ colIdxOf t.header valueCol → cellD r2 k = cellD r k := by
  obtain ⟨hmem, ht2⟩ := imputeCostValues_ok t t2 hok
  subst ht2
  have hclen : (imputeFB (getColumn t (colIdxOf t.header valueCol))).length
      = t.rows.length := by
    rw [length_imputeFB]; simp [getColumn]
  refine ⟨rfl, ?_, ?_⟩
  · show (setColumnRows _ _ _).length = _
    unfold setColumnRows
    rw [List.length_zipWith, hclen]
    simp
  · intro i r r2 hr hr2
    show r2.length = r.length ∧ _
    have hr2z : (setColumnRows t.rows (colIdxOf t.header valueCol)
        (imputeFB (getColumn t (colIdxOf t.header valueCol))))[i]? = some r2 := hr2
    unfold setColumnRows at hr2z
    rw [List.getElem?_zipWith, hr] at hr2z
    cases hcol : (imputeFB (getColumn t (colIdxOf t.header valueCol)))[i]? with
    | none => rw [hcol] at hr2z; simp at hr2z
    | some v =>
      rw [hcol] at hr2z
      simp at hr2z
      subst hr2z
      exact ⟨List.length_set _ _ _,
        fun k hk => cellD_set_ne r (colIdxOf t.header valueCol) k v
          (fun h => hk h.symm)⟩

/-- C10 witness: the frame conclusion instantiated at the concrete table
`exT1` and its imputed output — the `Country` cell of row 0 is untouched. -/
theorem C10_witness :
    exT1res.header = exT1.header ∧ exT1res.rows.length = exT1.rows.length ∧
    cellD [Val.str "DE", Val.num 3] 0 = cellD [Val.str "DE", Val.missing] 0 := by
  have h := C10_impute_frame exT1 exT1res (by decide) (by decide)
  exact ⟨h.1, h.2.1,
    (h.2.2 0 [Val.str "DE", Val.missing] [Val.str "DE", Val.num 3]
      (by decide) (by decide)).2 0 (by decide)⟩

/-- Production-cost table holding a comma-decimal string (`"2,50"`), a
missing cell, and a plainly non-numeric string (`"abc"`). -/
def exT5 : Table :=
  ⟨[valueCol], [[Val.str "2,50"], [Val.missing], [Val.str "abc"]]⟩

/-- C5 counterexample: `impute_cost_values` performs no numeric parsing at
all.  On a column holding the malformed values `"2,50"` and `"abc"` it
succeeds — no `ParseError` — keeping both strings verbatim and even
propagating `"2,50"` into the missing cell; nothing is normalized to a
period-decimal number. -/
theorem C5_counterexample :
    imputeCostValues exT5 =
      .ok ⟨[valueCol], [[Val.str "2,50"], [Val.str "2,50"], [Val.str "abc"]]⟩ := by
  decide

/-- C5 (amended): the imputer parses nothing and never fails on cell
contents: whenever the `Value (€/kg)` column exists it succeeds, and every
cell of the output column is a cell of the input column, copied verbatim
(malformed values are retained and propagated, not dropped, normalized, or
rejected). -/
theorem C5_impute_no_parsing (t : Table) (hmem : valueCol ∈ t.header)
    (hwf : t.WF) :
    ∃ t2, imputeCostValues t = .ok t2 ∧
      ∀ v ∈ getColumn t2 (colIdxOf t2.header valueCol),
        v ∈ getColumn t (colIdxOf t.header valueCol) := by
  refine ⟨⟨t.header, setColumnRows t.rows (colIdxOf t.header valueCol)
    (imputeFB (getColumn t (colIdxOf t.header valueCol)))⟩, ?_, ?_⟩
  · simp [imputeCostValues, hmem]
  · intro v hv
    rw [show colIdxOf (Table.mk t.header _).header valueCol
      = colIdxOf t.header valueCol from rfl, getColumn_impute t hwf hmem] at hv
    exact imputeFB_mem _ v hv

/-- C5 witness: the amended statement instantiated at the concrete table
holding `"2,50"` and `"abc"`. -/
theorem C5_witness :
    ∃ t2, imputeCostValues exT5 = .ok t2 ∧
      ∀ v ∈ getColumn t2 (colIdxOf t2.header valueCol),
        v ∈ getColumn exT5 (colIdxOf exT5.header valueCol) :=
  C5_impute_no_parsing exT5 (by decide) (by decide)

/-! ### Substring-exclude filter -/

theorem substrMatch_iff (hdr : List String) (col sub : String) (r : List Val) :
    substrMatch hdr col sub r = true ↔
      ∃ s, fieldD hdr r col = Val.str s ∧ containsCI s sub = true := by
  unfold substrMatch
  cases h : fieldD hdr r col <;> simp [h]

/-- C2: the substring-exclude filter keeps a row exactly when its named
column does not hold a string containing the pattern case-insensitively; a
row whose named column is missing is always kept; and the concrete row
`Project name = "Confidential Site A"` is dropped by the filter configured
with `"confidential"`. -/
theorem C2_substring_exclude (hdr : List String) (col sub : String)
    (rows : List (List Val)) (r : List Val) (hr : r ∈ rows) :
    (r ∈ substrExclude hdr col sub rows ↔
      ¬∃ s, fieldD hdr r col = Val.str s ∧ containsCI s sub = true) ∧
    (fieldD hdr r col = Val.missing → r ∈ substrExclude hdr col sub rows) ∧
    substrExclude ["Project name"] "Project name" "confidential"
      [[Val.str "Confidential Site A"]] = [] := by
  have hmemiff : r ∈ substrExclude hdr col sub rows ↔
      substrMatch hdr col sub r = false := by
    rw [substrExclude, List.mem_filter]
    constructor
    · rintro ⟨_, hp⟩
      cases hm : substrMatch hdr col sub r
      · rfl
      · rw [hm] at hp; cases hp
    · intro hm
      exact ⟨hr, by rw [hm]; rfl⟩
  refine ⟨?_, ?_, by decide⟩
  · rw [hmemiff]
    constructor
    · intro hm hex
      rw [(substrMatch_iff hdr col sub r).2 hex] at hm
      cases hm
    · intro hnex
      cases hm : substrMatch hdr col sub r
      · rfl
      · exact absurd ((substrMatch_iff hdr col sub r).1 hm) hnex
  · intro hmiss
    rw [hmemiff]
    cases hm : substrMatch hdr col sub r
    · rfl
    · obtain ⟨s, hs, _⟩ := (substrMatch_iff hdr col sub r).1 hm
      rw [hmiss] at hs
      cases hs

/-- C2 witness: in a concrete two-row table, the row whose `Project name`
is missing survives the confidentiality filter. -/
theorem C2_witness :
    [Val.missing] ∈ substrExclude ["Project name"] "Project name"
      "confidential" [[Val.str "Confidential Site A"], [Val.missing]] :=
  (C2_substring_exclude ["Project name"] "Project name" "confidential"
    [[Val.str "Confidential Site A"], [Val.missing]] [Val.missing]
    (by decide)).2.1 (by decide)

/-! ### Order preservation of the filters -/

theorem maskKeep_sublist (xs : List α) : ∀ bs : List Bool,
    (maskKeep bs xs).Sublist xs := by
  induction xs with
  | nil => intro bs; cases bs <;> exact List.nil_sublist _
  | cons x xs2 ih =>
    intro bs
    cases bs with
    | nil => exact List.nil_sublist _
    | cons b bs2 =>
      cases b
      · exact List.Sublist.cons x (ih bs2)
      · exact List.Sublist.cons₂ x (ih bs2)

theorem forall₂_map_self (R : β → α → Prop) (f : α → β) (l : List α)
    (h : ∀ a ∈ l, R (f a) a) : List.Forall₂ R (l.map f) l := by
  induction l with
  | nil => exact List.Forall₂.nil
  | cons a as ih =>
    rw [List.map_cons]
    exact List.Forall₂.cons (h a (List.mem_cons_self _ _))
      (ih (fun x hx => h x (List.mem_cons_of_mem _ hx)))

/-- C7: every filter of the pipeline — substring-exclude, all-empty row
drop, required-field row drop, all-empty column drop, and named column
drop — returns the surviving rows and columns in their original relative
order (each output is a sublist of its input). -/
theorem C7_filters_preserve_order (hdr : List String) (col sub : String)
    (rows : List (List Val)) (t : Table) (names : List String) :
    (substrExclude hdr col sub rows).Sublist rows ∧
    (allEmptyDropRows rows).Sublist rows ∧
    (requiredFieldDrop hdr col rows).Sublist rows ∧
    (dropEmptyColsTable t).header.Sublist t.header ∧
    List.Forall₂ (fun r2 r => r2.Sublist r) (dropEmptyColsTable t).rows t.rows ∧
    (dropColsTable names t).header.Sublist t.header ∧
    List.Forall₂ (fun r2 r => r2.Sublist r) (dropColsTable names t).rows t.rows := by
  refine ⟨List.filter_sublist _, List.filter_sublist _, List.filter_sublist _,
    maskKeep_sublist _ _, ?_, maskKeep_sublist _ _, ?_⟩
  · exact forall₂_map_self _ _ _ (fun r _ => maskKeep_sublist r _)
  · exact forall₂_map_self _ _ _ (fun r _ => maskKeep_sublist r _)

/-! ### Idempotence of the all-empty-drop filter -/

/-- Number of `true` entries of a mask. -/
def trueCount (bs : List Bool) : Nat := bs.countP (fun b => b)

theorem maskKeep_length_pair (bs : List Bool) :
    ∀ (xs : List α) (ys : List β), xs.length = ys.length →
      (maskKeep bs xs).length = (maskKeep bs ys).length := by
  induction bs with
  | nil =>
    intro xs ys _
    cases xs <;> cases ys <;> rfl
  | cons b bs2 ih =>
    intro xs ys hlen
    cases xs with
    | nil => cases ys with
      | nil => rfl
      | cons y ys2 => cases hlen
    | cons x xs2 =>
      cases ys with
      | nil => cases hlen
      | cons y ys2 =>
        have h2 : xs2.length = ys2.length := by simpa using hlen
        cases b
        · show (maskKeep bs2 xs2).length = (maskKeep bs2 ys2).length
          exact ih xs2 ys2 h2
        · show (x :: maskKeep bs2 xs2).length = (y :: maskKeep bs2 ys2).length
          simp [ih xs2 ys2 h2]

theorem maskKeep_length_count (bs : List Bool) :
    ∀ xs : List α, xs.length = bs.length →
      (maskKeep bs xs).length = trueCount bs := by
  induction bs with
  | nil =>
    intro xs hlen
    cases xs with
    | nil => rfl
    | cons x xs2 => cases hlen
  | cons b bs2 ih =>
    intro xs hlen
    cases xs with
    | nil => cases hlen
    | cons x xs2 =>
      have h2 : xs2.length = bs2.length := by simpa using hlen
      cases b
      · show (maskKeep bs2 xs2).length = trueCount (false :: bs2)
        rw [ih xs2 h2]
        simp [trueCount, List.countP_cons]
      · show (x :: maskKeep bs2 xs2).length = trueCount (true :: bs2)
        simp [trueCount, List.countP_cons, ih xs2 h2]

theorem maskKeep_allTrue (xs : List α) : ∀ bs : List Bool,
    (∀ b ∈ bs, b = true) → xs.length ≤ bs.length → maskKeep bs xs = xs := by
  induction xs with
  | nil => intro bs _ _; cases bs <;> rfl
  | cons x xs2 ih =>
    intro bs hall hlen
    cases bs with
    | nil => cases hlen
    | cons b bs2 =>
      have hb : b = true := hall b (List.mem_cons_self _ _)
      subst hb
      show x :: maskKeep bs2 xs2 = x :: xs2
      rw [ih bs2 (fun c hc => hall c (List.mem_cons_of_mem _ hc))
        (Nat.le_of_succ_le_succ hlen)]

theorem cellD_present_lt (x : List Val) (j : Nat)
    (h : (cellD x j).isMissing = false) : j < x.length := by
  by_contra hlt
  have hge : x.length ≤ j := Nat.le_of_not_lt hlt
  rw [show cellD x j = Val.missing from by
    unfold cellD; exact List.getD_eq_default _ _ hge] at h
  cases h

theorem cellD_mem (x : List Val) (j : Nat) (h : j < x.length) :
    cellD x j ∈ x := by
  unfold cellD
  rw [List.getD_eq_getElem _ _ h]
  exact List.getElem_mem h

theorem colPresent_maskKeep (bs : List Bool) :
    ∀ rows : List (List Val),
      (∀ r ∈ rows, r.length = bs.length) →
      (∀ k, k < bs.length → bs.getD k false = true →
        ∃ r ∈ rows, (cellD r k).isMissing = false) →
      ∀ j, j < trueCount bs →
        ∃ r ∈ rows, (cellD (maskKeep bs r) j).isMissing = false := by
  induction bs with
  | nil =>
    intro rows _ _ j hj
    simp [trueCount] at hj
  | cons b bs2 ih =>
    intro rows hlen hsel j hj
    have hlen2 : ∀ r2 ∈ rows.map List.tail, r2.length = bs2.length := by
      intro r2 hr2
      obtain ⟨r, hr, hrt⟩ := List.mem_map.mp hr2
      cases r with
      | nil => cases hlen [] hr
      | cons c cs =>
        subst hrt
        have := hlen (c :: cs) hr
        simpa using this
    have hsel2 : ∀ k, k < bs2.length → bs2.getD k false = true →
        ∃ r2 ∈ rows.map List.tail, (cellD r2 k).isMissing = false := by
      intro k hk hbk
      obtain ⟨r, hr, hpres⟩ := hsel (k + 1) (Nat.succ_lt_succ hk)
        (by simpa using hbk)
      cases r with
      | nil => cases hlen [] hr
      | cons c cs =>
        refine ⟨cs, List.mem_map.mpr ⟨c :: cs, hr, rfl⟩, ?_⟩
        simpa [cellD, List.getD_cons_succ] using hpres
    cases b with
    | false =>
      have hj2 : j < trueCount bs2 := by
        simpa [trueCount, List.countP_cons] using hj
      obtain ⟨r2, hr2, hp⟩ := ih (rows.map List.tail) hlen2 hsel2 j hj2
      obtain ⟨r, hr, hrt⟩ := List.mem_map.mp hr2
      cases r with
      | nil => cases hlen [] hr
      | cons c cs =>
        subst hrt
        exact ⟨c :: cs, hr, by simpa [maskKeep] using hp⟩
    | true =>
      cases j with
      | zero =>
        obtain ⟨r, hr, hpres⟩ := hsel 0 (Nat.succ_pos _) rfl
        cases r with
        | nil => cases hlen [] hr
        | cons c cs =>
          refine ⟨c :: cs, hr, ?_⟩
          simpa [maskKeep, cellD] using hpres
      | succ n =>
        have hn : n < trueCount bs2 := by
          simpa [trueCount, List.countP_cons] using hj
        obtain ⟨r2, hr2, hp⟩ := ih (rows.map List.tail) hlen2 hsel2 n hn
        obtain ⟨r, hr, hrt⟩ := List.mem_map.mp hr2
        cases r with
        | nil => cases hlen [] hr
        | cons c cs =>
          subst hrt
          refine ⟨c :: cs, hr, ?_⟩
          simpa [maskKeep, cellD, List.getD_cons_succ] using hp

theorem emptyColMask_length (t : Table) :
    (emptyColMask t).length = t.header.length := by
  simp [emptyColMask]

theorem emptyColMask_getD (t : Table) (k : Nat) (hk : k < t.header.length) :
    (emptyColMask t).getD k false = colPresent t.rows k := by
  unfold emptyColMask
  rw [List.getD_eq_getElem?_getD, List.getElem?_map, List.getElem?_range hk]
  rfl

theorem colPresent_true_iff (rows : List (List Val)) (k : Nat) :
    colPresent rows k = true ↔ ∃ r ∈ rows, (cellD r k).isMissing = false := by
  unfold colPresent
  rw [List.any_eq_true]
  constructor
  · rintro ⟨r, hr, hp⟩
    exact ⟨r, hr, by simpa using hp⟩
  · rintro ⟨r, hr, hp⟩
    exact ⟨r, hr, by simpa using hp⟩

/-- C8: the all-empty-drop filter of `clean_europe_datasets` (drop all-NaN
columns, then all-NaN rows) is idempotent: re-running it on its own output
returns that output unchanged. -/
theorem C8_all_empty_drop_idempotent (t : Table) (hwf : t.WF) :
    cleanEuropeCore (cleanEuropeCore t) = cleanEuropeCore t := by
  have hml := emptyColMask_length t
  set m := emptyColMask t with hm
  set h1 := maskKeep m t.header with hh1
  set rows1 := allEmptyDropRows (t.rows.map (maskKeep m)) with hrows1
  have hstep : cleanEuropeCore t = ⟨h1, rows1⟩ := rfl
  have hlen1 : ∀ r1 ∈ rows1, r1.length = h1.length := by
    intro r1 hr1
    have hr1' : r1 ∈ t.rows.map (maskKeep m) :=
      (List.mem_filter.mp hr1).1
    obtain ⟨r, hr, hrt⟩ := List.mem_map.mp hr1'
    subst hrt
    exact maskKeep_length_pair m r t.header (hwf r hr)
  have hcount : h1.length = trueCount m := by
    rw [hh1]
    exact maskKeep_length_count m t.header hml.symm
  have hkey : ∀ j, j < trueCount m →
      ∃ r1 ∈ rows1, (cellD r1 j).isMissing = false := by
    intro j hj
    obtain ⟨r, hr, hp⟩ := colPresent_maskKeep m t.rows
      (fun r hr => (hwf r hr).trans hml.symm)
      (fun k hk hbk => by
        rw [emptyColMask_getD t k (by rw [← hml]; exact hk)] at hbk
        exact (colPresent_true_iff t.rows k).1 hbk)
      j hj
    refine ⟨maskKeep m r, ?_, hp⟩
    rw [hrows1]
    apply List.mem_filter.mpr
    refine ⟨List.mem_map.mpr ⟨r, hr, rfl⟩, ?_⟩
    have hkmem : cellD (maskKeep m r) j ∈ maskKeep m r :=
      cellD_mem _ _ (cellD_present_lt _ _ hp)
    cases ham : allMissing (maskKeep m r)
    · rfl
    · have := (allMissing_iff _).1 ham _ hkmem
      rw [this] at hp
      cases hp
  have hm1 : ∀ b ∈ emptyColMask ⟨h1, rows1⟩, b = true := by
    intro b hb
    obtain ⟨k, hk, hbk⟩ := List.mem_map.mp hb
    have hklt : k < h1.length := by
      simpa using List.mem_range.mp hk
    subst hbk
    apply (colPresent_true_iff rows1 k).2
    exact hkey k (by rw [← hcount]; exact hklt)
  have hm1len : (emptyColMask ⟨h1, rows1⟩).length = h1.length := by
    simp [emptyColMask]
  have hhdr2 : maskKeep (emptyColMask ⟨h1, rows1⟩) h1 = h1 :=
    maskKeep_allTrue h1 _ hm1 (Nat.le_of_eq hm1len.symm)
  have hrows2 : rows1.map (maskKeep (emptyColMask ⟨h1, rows1⟩)) = rows1 := by
    have hid : rows1.map (maskKeep (emptyColMask ⟨h1, rows1⟩)) = rows1.map id :=
      List.map_congr_left (fun r1 hr1 => maskKeep_allTrue r1 _ hm1
        (by rw [hm1len]; exact Nat.le_of_eq (hlen1 r1 hr1)))
    rw [hid, List.map_id]
  have hfilter : allEmptyDropRows rows1 = rows1 := by
    apply List.filter_eq_self.mpr
    intro r1 hr1
    exact (List.mem_filter.mp hr1).2
  show (⟨maskKeep (emptyColMask ⟨h1, rows1⟩) h1,
    allEmptyDropRows (rows1.map (maskKeep (emptyColMask ⟨h1, rows1⟩)))⟩ : Table)
    = ⟨h1, rows1⟩
  rw [hhdr2, hrows2, hfilter]

/-- European-dataset example whose first column is all-missing and whose
first row is all-missing. -/
def exT8 : Table :=
  ⟨["a", "b"], [[Val.missing, Val.missing], [Val.missing, Val.num 1]]⟩

/-- C8 witness: idempotence instantiated at a concrete table with an
all-missing row and an all-missing column. -/
theorem C8_witness :
    cleanEuropeCore (cleanEuropeCore exT8) = cleanEuropeCore exT8 :=
  C8_all_empty_drop_idempotent exT8 (by decide)

/-! ### Range-splitting parser: claims C3 and C4 -/

/-- C3: splitting `"2,50-3,10"` yields the numeric pair `(2.50, 3.10)`
(commas normalized to decimal points first), and splitting `"4.00-4.00"`
yields the pair `(4.00, 4.00)`. -/
theorem C3_range_split_round_trip :
    splitRangeColumn [Val.str "2,50-3,10"]
      = .ok [(Val.num (mkRat 5 2), Val.num (mkRat 31 10))] ∧
    splitRangeColumn [Val.str "4.00-4.00"]
      = .ok [(Val.num (mkRat 4 1), Val.num (mkRat 4 1))] ∧
    (mkRat 5 2 : Rat) = 2.50 ∧ (mkRat 31 10 : Rat) = 3.10 ∧
    (mkRat 4 1 : Rat) = 4.00 :=
  ⟨by decide, by decide, by norm_num [Rat.mkRat_eq_div],
   by norm_num [Rat.mkRat_eq_div], by norm_num [Rat.mkRat_eq_div]⟩

/-- C4 counterexample: in the column `["2-3", "4"]` the string `"4"` does
not split into two numeric tokens, yet the transform succeeds — no error —
returning `(4.0, NaN)` for that row (the expansion pads the missing second
token with NaN instead of failing). -/
theorem C4_counterexample :
    splitRangeColumn [Val.str "2-3", Val.str "4"]
      = .ok [(Val.num (mkRat 2 1), Val.num (mkRat 3 1)),
             (Val.num (mkRat 4 1), Val.missing)] := by
  decide

theorem splitDash_ne_nil (cs : List Char) : splitDash cs ≠ [] := by
  cases cs with
  | nil => simp [splitDash]
  | cons c t =>
    simp only [splitDash]
    cases h : splitDash t with
    | nil => simp
    | cons g gs => by_cases hc : c = '-' <;> simp [hc]

theorem splitMinMax_ne_nil (s : String) : splitMinMax s ≠ [] := by
  unfold splitMinMax
  intro h
  exact splitDash_ne_nil _ (List.map_eq_nil_iff.mp h)

theorem le_foldl_widthStep (col : List Val) :
    ∀ a : Nat, a ≤ col.foldl widthStep a := by
  induction col with
  | nil => intro a; exact Nat.le_refl a
  | cons v vs ih =>
    intro a
    have h1 : a ≤ widthStep a v := by
      cases v with
      | str s => exact Nat.le_max_left _ _
      | num q => exact Nat.le_refl a
      | missing => exact Nat.le_refl a
    exact Nat.le_trans h1 (ih (widthStep a v))

theorem mem_le_foldl_widthStep (s : String) :
    ∀ (col : List Val) (a : Nat), Val.str s ∈ col →
      (splitMinMax s).length ≤ col.foldl widthStep a := by
  intro col
  induction col with
  | nil => intro a h; cases h
  | cons v vs ih =>
    intro a h
    rcases List.mem_cons.mp h with h1 | h1
    · cases h1
      have h2 : (splitMinMax s).length ≤ widthStep a (Val.str s) :=
        Nat.le_max_right _ _
      exact Nat.le_trans h2 (le_foldl_widthStep vs _)
    · exact ih (widthStep a v) h1

theorem expandWidth_ge (col : List Val) (s : String) (h : Val.str s ∈ col) :
    (splitMinMax s).length ≤ expandWidth col :=
  mem_le_foldl_widthStep s col 1 h

theorem mapExcept_ok (f : Val → Except String (Val × Val)) :
    ∀ (l : List Val) (out : List (Val × Val)), mapExcept f l = .ok out →
      ∀ (i : Nat) (x : Val), l[i]? = some x →
        ∃ y, f x = .ok y ∧ out[i]? = some y := by
  intro l
  induction l with
  | nil => intro out _ i x hx; simp at hx
  | cons a l2 ih =>
    intro out hok i x hx
    cases hfa : f a with
    | error e =>
      simp only [mapExcept, hfa] at hok
      exact Except.noConfusion hok
    | ok y =>
      cases hml : mapExcept f l2 with
      | error e =>
        simp only [mapExcept, hfa, hml] at hok
        exact Except.noConfusion hok
      | ok ys =>
        simp only [mapExcept, hfa, hml] at hok
        injection hok with hok
        subst hok
        cases i with
        | zero =>
          rw [List.getElem?_cons_zero] at hx
          injection hx with hx
          subst hx
          exact ⟨y, hfa, by simp⟩
        | succ n =>
          rw [List.getElem?_cons_succ] at hx
          obtain ⟨y2, hy2, hout⟩ := ih ys hml n x hx
          exact ⟨y2, hy2, by simpa using hout⟩

theorem mapExcept_error_of_mem (f : Val → Except String (Val × Val)) :
    ∀ (l : List Val) (v : Val), v ∈ l → okB (f v) = false →
      okB (mapExcept f l) = false := by
  intro l
  induction l with
  | nil => intro v hv _; cases hv
  | cons a l2 ih =>
    intro v hv hbad
    rcases List.mem_cons.mp hv with h1 | h1
    · subst h1
      cases hfa : f v with
      | error e => simp [mapExcept, hfa, okB]
      | ok y => rw [hfa] at hbad; simp [okB] at hbad
    · cases hfa : f a with
      | error e => simp [mapExcept, hfa, okB]
      | ok y =>
        have h2 := ih v h1 hbad
        cases hml : mapExcept f l2 with
        | error e => simp [mapExcept, hfa, hml, okB]
        | ok ys => rw [hml] at h2; simp [okB] at h2

theorem splitRow_error (s tok : String) (hmem : tok ∈ splitMinMax s)
    (hlen : (splitMinMax s).length ≤ 2) (hbad : parseFloat? tok = none) :
    okB (splitRow (Val.str s)) = false := by
  cases hts : splitMinMax s with
  | nil => rw [hts] at hmem; cases hmem
  | cons a ts2 =>
    cases ts2 with
    | nil =>
      have htok : tok = a := by rw [hts] at hmem; simpa using hmem
      subst htok
      simp [splitRow, hts, astypeFloat, hbad, okB]
    | cons b ts3 =>
      cases ts3 with
      | nil =>
        rw [hts] at hmem
        rcases List.mem_cons.mp hmem with h1 | h1
        · subst h1
          simp [splitRow, hts, astypeFloat, hbad, okB]
        · have htok : tok = b := by simpa using h1
          subst htok
          cases hpa : parseFloat? a with
          | none => simp [splitRow, hts, astypeFloat, hpa, okB]
          | some qa => simp [splitRow, hts, astypeFloat, hpa, hbad, okB]
      | cons c ts4 =>
        rw [hts] at hlen
        simp at hlen

/-- C4 (amended): the transform does fail when the expansion width (the
maximum token count over the column's string cells) differs from two, and
when, at width two, some token of some cell is non-numeric; but a single
cell without a separator does not by itself cause failure: in a succeeding
column, a one-token cell yields `(parsed token, NaN)` instead of an
error. -/
theorem C4_range_split_error_behavior (col : List Val) :
    (expandWidth col ≠ 2 → okB (splitRangeColumn col) = false) ∧
    (∀ s tok : String, expandWidth col = 2 → Val.str s ∈ col →
      tok ∈ splitMinMax s → parseFloat? tok = none →
      okB (splitRangeColumn col) = false) ∧
    (∀ (i : Nat) (s tok : String) (out : List (Val × Val)),
      splitRangeColumn col = .ok out → col[i]? = some (Val.str s) →
      splitMinMax s = [tok] →
      ∃ q, parseFloat? tok = some q ∧ out[i]? = some (Val.num q, Val.missing)) := by
  refine ⟨?_, ?_, ?_⟩
  · intro h
    simp [splitRangeColumn, h, okB]
  · intro s tok hw hmem htok hbad
    rw [splitRangeColumn, if_pos hw]
    exact mapExcept_error_of_mem splitRow col (Val.str s) hmem
      (splitRow_error s tok htok
        (by rw [← hw]; exact expandWidth_ge col s hmem) hbad)
  · intro i s tok out hok hcell hts
    have hw : expandWidth col = 2 := by
      by_cases h : expandWidth col = 2
      · exact h
      · rw [splitRangeColumn, if_neg h] at hok; cases hok
    rw [splitRangeColumn, if_pos hw] at hok
    obtain ⟨y, hy, hout⟩ := mapExcept_ok splitRow col out hok i (Val.str s) hcell
    cases hpt : parseFloat? tok with
    | none =>
      rw [show splitRow (Val.str s) = .error "could not convert string to float"
        from by simp [splitRow, hts, astypeFloat, hpt]] at hy
      cases hy
    | some q =>
      refine ⟨q, rfl, ?_⟩
      rw [show splitRow (Val.str s) = .ok (Val.num q, Val.missing) from by
        simp [splitRow, hts, astypeFloat, hpt]] at hy
      injection hy with hy
      rw [← hy] at hout
      exact hout

/-- C4 witness: a three-token cell makes the transform fail, a non-numeric
token at width two makes it fail, and the separator-free cell `"4"` of the
counterexample column comes out as `(4.0, NaN)` in the successful run. -/
theorem C4_witness :
    okB (splitRangeColumn [Val.str "2-3-4"]) = false ∧
    okB (splitRangeColumn [Val.str "2-x"]) = false ∧
    ∃ q, parseFloat? "4" = some q ∧
      ([(Val.num (mkRat 2 1), Val.num (mkRat 3 1)),
        (Val.num (mkRat 4 1), Val.missing)] : List (Val × Val))[1]?
        = some (Val.num q, Val.missing) :=
  ⟨(C4_range_split_error_behavior [Val.str "2-3-4"]).1 (by decide),
   (C4_range_split_error_behavior [Val.str "2-x"]).2.1 "2-x" "x" (by decide)
     (by decide) (by decide) (by decide),
   (C4_range_split_error_behavior [Val.str "2-3", Val.str "4"]).2.2 1 "4" "4"
     [(Val.num (mkRat 2 1), Val.num (mkRat 3 1)),
      (Val.num (mkRat 4 1), Val.missing)]
     (by decide) (by decide) (by decide)⟩

/-! ### Targeted corrector: claim C6 -/

theorem refineMatch_iff (hdr : List String) (r : List Val) :
    refineMatch hdr r = true ↔
      fieldD hdr r "year" = Val.num 2030 ∧
      fieldD hdr r "technology" = Val.str "Electrolysis" ∧
      fieldD hdr r "status" = Val.str "Operational" := by
  unfold refineMatch
  cases hy : fieldD hdr r "year" <;> cases ht : fieldD hdr r "technology" <;>
    cases hs : fieldD hdr r "status" <;> simp [hy, ht, hs, and_assoc]

/-- C6: `update_refinery_region` rewrites `region` to the literal
`"Global"` exactly on the rows with `year = 2030`,
`technology = "Electrolysis"`, `status = "Operational"`; every other row is
returned identically, every other field of a matched row is unchanged, the
header is unchanged, and no row is added or removed. -/
theorem C6_update_refinery_region (t t2 : Table) (hwf : t.WF)
    (hyear : "year" ∈ t.header) (htech : "technology" ∈ t.header)
    (hstat : "status" ∈ t.header) (hreg : "region" ∈ t.header)
    (hok : updateRefineryRegion t = .ok t2) :
    t2.header = t.header ∧ t2.rows.length = t.rows.length ∧
    ∀ (i : Nat) (r : List Val), t.rows[i]? = some r →
      (¬(fieldD t.header r "year" = Val.num 2030 ∧
         fieldD t.header r "technology" = Val.str "Electrolysis" ∧
         fieldD t.header r "status" = Val.str "Operational") →
        t2.rows[i]? = some r) ∧
      ((fieldD t.header r "year" = Val.num 2030 ∧
        fieldD t.header r "technology" = Val.str "Electrolysis" ∧
        fieldD t.header r "status" = Val.str "Operational") →
        ∃ r2, t2.rows[i]? = some r2 ∧
          fieldD t.header r2 "region" = Val.str "Global" ∧
          r2.length = r.length ∧
          ∀ k, k ≠ colIdxOf t.header "region" → cellD r2 k = cellD r k) := by
  have ht2 : t2 = ⟨t.header, t.rows.map (fun r =>
      if refineMatch t.header r then
        r.set (colIdxOf t.header "region") (Val.str "Global")
      else r)⟩ := by
    rw [updateRefineryRegion, if_pos ⟨hyear, htech, hstat⟩, if_pos hreg] at hok
    exact (Except.ok.inj hok).symm
  subst ht2
  refine ⟨rfl, by simp, ?_⟩
  intro i r hr
  have hrmem : r ∈ t.rows := by
    obtain ⟨hlt, hel⟩ := List.getElem?_eq_some.mp hr
    exact hel ▸ List.getElem_mem hlt
  have hmap : (Table.mk t.header (t.rows.map (fun r =>
      if refineMatch t.header r then
        r.set (colIdxOf t.header "region") (Val.str "Global")
      else r))).rows[i]? = some (if refineMatch t.header r then
        r.set (colIdxOf t.header "region") (Val.str "Global")
      else r) := by
    show (t.rows.map _)[i]? = _
    rw [List.getElem?_map, hr]
    rfl
  constructor
  · intro hnot
    cases hm : refineMatch t.header r with
    | false =>
      rw [hmap]
      simp [hm]
    | true => exact absurd ((refineMatch_iff t.header r).1 hm) hnot
  · intro htriple
    have hm : refineMatch t.header r = true := (refineMatch_iff t.header r).2 htriple
    have hjr : colIdxOf t.header "region" < r.length := by
      rw [hwf r hrmem]
      exact colIdxOf_lt t.header "region" hreg
    refine ⟨r.set (colIdxOf t.header "region") (Val.str "Global"), ?_, ?_, ?_, ?_⟩
    · rw [hmap]
      simp [hm]
    · exact cellD_set_self r _ _ hjr
    · exact List.length_set _ _ _
    · intro k hk
      exact cellD_set_ne r _ k _ (fun h => hk h.symm)

/-- Refinery-demand example with one matched and one unmatched row. -/
def exT6 : Table :=
  ⟨["year", "technology", "status", "region"],
   [[Val.num 2030, Val.str "Electrolysis", Val.str "Operational",
     Val.str "Europe"],
    [Val.num 2025, Val.str "Electrolysis", Val.str "Operational",
     Val.str "Europe"]]⟩

/-- The corrected version of `exT6`: only row 0 has its region changed. -/
def exT6res : Table :=
  ⟨["year", "technology", "status", "region"],
   [[Val.num 2030, Val.str "Electrolysis", Val.str "Operational",
     Val.str "Global"],
    [Val.num 2025, Val.str "Electrolysis", Val.str "Operational",
     Val.str "Europe"]]⟩

/-- C6 witness: the selectivity conclusion instantiated at the concrete
two-row refinery table — the unmatched row 1 is returned verbatim, and the
matched row 0 comes back with `region = "Global"`. -/
theorem C6_witness :
    exT6res.header = exT6.header ∧ exT6res.rows.length = exT6.rows.length ∧
    exT6res.rows[1]? = some [Val.num 2025, Val.str "Electrolysis",
      Val.str "Operational", Val.str "Europe"] ∧
    exT6res.rows[0]? = some [Val.num 2030, Val.str "Electrolysis",
      Val.str "Operational", Val.str "Global"] := by
  have h := C6_update_refinery_region exT6 exT6res (by decide) (by decide)
    (by decide) (by decide) (by decide) (by decide)
  refine ⟨h.1, h.2.1, ?_, ?_⟩
  · exact (h.2.2 1 [Val.num 2025, Val.str "Electrolysis",
      Val.str "Operational", Val.str "Europe"] (by decide)).1 (by decide)
  · decide

/-! ### Field lookup through column drops (for claim C9) -/

theorem fieldD_cons_eq (h : String) (hs : List String) (c : Val)
    (cs : List Val) (n : String) (he : (h == n) = true) :
    fieldD (h :: hs) (c :: cs) n = c := by
  unfold fieldD colIdxOf cellD
  rw [List.findIdx_cons, he]
  rfl

theorem fieldD_cons_ne (h : String) (hs : List String) (c : Val)
    (cs : List Val) (n : String) (he : (h == n) = false) :
    fieldD (h :: hs) (c :: cs) n = fieldD hs cs n := by
  unfold fieldD colIdxOf cellD
  rw [List.findIdx_cons, he]
  simp [List.getD_cons_succ]

theorem dropMask_cons (names : List String) (h : String) (hs : List String) :
    dropMask names (h :: hs) = (!(names.contains h)) :: dropMask names hs := rfl

theorem maskKeep_cons_true (bs : List Bool) (x : α) (xs : List α) :
    maskKeep (true :: bs) (x :: xs) = x :: maskKeep bs xs := rfl

theorem maskKeep_cons_false (bs : List Bool) (x : α) (xs : List α) :
    maskKeep (false :: bs) (x :: xs) = maskKeep bs xs := rfl

theorem maskKeep_fieldD (names : List String) (n : String)
    (hn : names.contains n = false) :
    ∀ (hdr : List String) (r : List Val), r.length = hdr.length →
      fieldD (maskKeep (dropMask names hdr) hdr)
        (maskKeep (dropMask names hdr) r) n = fieldD hdr r n := by
  intro hdr
  induction hdr with
  | nil =>
    intro r hlen
    cases r with
    | nil => rfl
    | cons c cs => cases hlen
  | cons h hs ih =>
    intro r hlen
    cases r with
    | nil => cases hlen
    | cons c cs =>
      have hlen2 : cs.length = hs.length := by simpa using hlen
      rw [dropMask_cons]
      by_cases heq : h = n
      · subst heq
        have hb : names.contains h = false := hn
        rw [hb]
        rw [show (!false) = true from rfl, maskKeep_cons_true, maskKeep_cons_true]
        rw [fieldD_cons_eq _ _ _ _ _ (by simp), fieldD_cons_eq _ _ _ _ _ (by simp)]
      · have hne : (h == n) = false := by
          cases hbe : h == n
          · rfl
          · exact absurd (by simpa using hbe) heq
        cases hb : names.contains h
        · rw [show (!false) = true from rfl, maskKeep_cons_true, maskKeep_cons_true]
          rw [fieldD_cons_ne _ _ _ _ _ hne, fieldD_cons_ne _ _ _ _ _ hne]
          exact ih cs hlen2
        · rw [show (!true) = false from rfl, maskKeep_cons_false, maskKeep_cons_false]
          rw [fieldD_cons_ne _ _ _ _ _ hne]
          exact ih cs hlen2

theorem mem_of_mem_maskKeep (x : α) :
    ∀ (xs : List α) (bs : List Bool), x ∈ maskKeep bs xs → x ∈ xs := by
  intro xs
  induction xs with
  | nil => intro bs h; cases bs <;> cases h
  | cons y ys ih =>
    intro bs h
    cases bs with
    | nil => cases h
    | cons b bs2 =>
      cases b
      · exact List.mem_cons_of_mem _ (ih bs2 h)
      · rcases List.mem_cons.mp h with h1 | h1
        · exact h1 ▸ List.mem_cons_self _ _
        · exact List.mem_cons_of_mem _ (ih bs2 h1)

theorem mem_maskKeep_dropMask (names : List String) (n : String)
    (hn : names.contains n = false) :
    ∀ hdr : List String, n ∈ hdr → n ∈ maskKeep (dropMask names hdr) hdr := by
  intro hdr
  induction hdr with
  | nil => intro h; cases h
  | cons h hs ih =>
    intro hmem
    rw [dropMask_cons]
    rcases List.mem_cons.mp hmem with h1 | h1
    · subst h1
      rw [hn, show (!false) = true from rfl, maskKeep_cons_true]
      exact List.mem_cons_self _ _
    · cases hb : names.contains h
      · rw [show (!false) = true from rfl, maskKeep_cons_true]
        exact List.mem_cons_of_mem _ (ih h1)
      · rw [show (!true) = false from rfl, maskKeep_cons_false]
        exact ih h1

theorem not_mem_maskKeep_dropMask (names : List String) (n : String)
    (hn : names.contains n = true) :
    ∀ hdr : List String, n ∉ maskKeep (dropMask names hdr) hdr := by
  intro hdr
  induction hdr with
  | nil => intro h; cases h
  | cons h hs ih =>
    intro hmem
    rw [dropMask_cons] at hmem
    cases hb : names.contains h
    · rw [hb, show (!false) = true from rfl, maskKeep_cons_true] at hmem
      rcases List.mem_cons.mp hmem with h1 | h1
      · subst h1
        rw [hn] at hb
        cases hb
      · exact ih h1
    · rw [hb, show (!true) = false from rfl, maskKeep_cons_false] at hmem
      exact ih hmem

/-! ### Counting helpers (for claim C9) -/

theorem countP_split (p : α → Bool) : ∀ l : List α,
    l.countP p + l.countP (fun a => !(p a)) = l.length := by
  intro l
  induction l with
  | nil => rfl
  | cons a as ih =>
    cases h : p a <;> simp [List.countP_cons, h] <;> omega

theorem allMissing_cellD (r : List Val) (h : allMissing r = true) (j : Nat) :
    cellD r j = Val.missing := by
  by_cases hj : j < r.length
  · exact (isMissing_iff _).1 ((allMissing_iff r).1 h _ (cellD_mem r j hj))
  · unfold cellD
    exact List.getD_eq_default _ _ (Nat.le_of_not_lt hj)

theorem allMissing_not_substrMatch (hdr : List String) (col sub : String)
    (r : List Val) (h : allMissing r = true) :
    substrMatch hdr col sub r = false := by
  unfold substrMatch fieldD
  rw [allMissing_cellD r h]

theorem countP_fieldD_dropCols (names : List String) (n : String)
    (hn : names.contains n = false) (hdr : List String)
    (rows : List (List Val)) (hlen : ∀ r ∈ rows, r.length = hdr.length)
    (p : Val → Bool) :
    ((dropColsTable names ⟨hdr, rows⟩).rows).countP
        (fun r => p (fieldD (dropColsTable names ⟨hdr, rows⟩).header r n))
      = rows.countP (fun r => p (fieldD hdr r n)) := by
  show (rows.map (maskKeep (dropMask names hdr))).countP _ = _
  rw [List.countP_map]
  apply List.countP_congr
  intro r hr
  have h2 := maskKeep_fieldD names n hn hdr r (hlen r hr)
  simp only [Function.comp]
  rw [show (dropColsTable names ⟨hdr, rows⟩).header
    = maskKeep (dropMask names hdr) hdr from rfl, h2]

/-! ### Claim C9: end-to-end IEA cleaning scenario -/

/-- Rows of `clean_iea_projects` after the confidentiality filter. -/
def ieaRows1 (t : Table) : List (List Val) :=
  substrExclude t.header "Project name" "confidential" t.rows

/-- Rows after additionally dropping all-empty rows. -/
def ieaRows2 (t : Table) : List (List Val) := allEmptyDropRows (ieaRows1 t)

/-- The intermediate table after dropping the `Refs` column. -/
def ieaT3 (t : Table) : Table :=
  dropColsTable ["Refs"] ⟨t.header, ieaRows2 t⟩

/-- The intermediate table after additionally dropping the irrelevant
columns. -/
def ieaT4 (t : Table) : Table := dropColsTable ieaColsToDrop (ieaT3 t)

theorem cleanIEA_eq (t : Table) (hpn : "Project name" ∈ t.header)
    (hdo4 : "Date online" ∈ (ieaT4 t).header) :
    cleanIEA t = .ok ⟨(ieaT4 t).header,
      requiredFieldDrop (ieaT4 t).header "Date online" (ieaT4 t).rows⟩ := by
  unfold cleanIEA
  rw [if_pos hpn]
  show (if "Date online" ∈ (ieaT4 t).header then
      Except.ok (Table.mk (ieaT4 t).header
        (requiredFieldDrop (ieaT4 t).header "Date online" (ieaT4 t).rows))
    else Except.error "KeyError") = _
  rw [if_pos hdo4]

/-- C9: on a loaded IEA table holding exactly one confidential row, exactly
one all-empty row, and exactly one further row (neither confidential nor
all-empty) missing `Date online`, the cleaning pipeline succeeds, returns
exactly `original_row_count - 3` rows, and its output has no `Refs`
column. -/
theorem C9_clean_iea_end_to_end (t : Table) (hwf : t.WF)
    (hpn : "Project name" ∈ t.header) (hdo : "Date online" ∈ t.header)
    (hconf : t.rows.countP (fun r => confMatch t.header r) = 1)
    (hempty : t.rows.countP allMissing = 1)
    (hdomiss : t.rows.countP (fun r =>
      (fieldD t.header r "Date online").isMissing && !(allMissing r)
        && !(confMatch t.header r)) = 1) :
    ∃ t2, cleanIEA t = .ok t2 ∧ t2.rows.length = t.rows.length - 3 ∧
      "Refs" ∉ t2.header := by
  have hdo3 : "Date online" ∈ (ieaT3 t).header :=
    mem_maskKeep_dropMask ["Refs"] "Date online" (by decide) t.header hdo
  have hdo4 : "Date online" ∈ (ieaT4 t).header :=
    mem_maskKeep_dropMask ieaColsToDrop "Date online" (by decide)
      (ieaT3 t).header hdo3
  refine ⟨_, cleanIEA_eq t hpn hdo4, ?_, ?_⟩
  · show (requiredFieldDrop (ieaT4 t).header "Date online" (ieaT4 t).rows).length
      = t.rows.length - 3
    have e0 : (ieaRows1 t).length
        = t.rows.countP (fun r => !(confMatch t.header r)) :=
      (List.countP_eq_length_filter _ _).symm
    have e1 : t.rows.countP (fun r => confMatch t.header r)
        + t.rows.countP (fun r => !(confMatch t.header r)) = t.rows.length :=
      countP_split _ _
    have e2 : (ieaRows1 t).countP allMissing
        = t.rows.countP (fun r => allMissing r && !(confMatch t.header r)) :=
      List.countP_filter _ _ _
    have e3 : t.rows.countP (fun r => allMissing r && !(confMatch t.header r))
        = t.rows.countP allMissing :=
      List.countP_congr (fun r _ => by
        cases ham : allMissing r
        · simp [ham]
        · simp [ham, show confMatch t.header r = false from
            allMissing_not_substrMatch t.header "Project name" "confidential"
              r ham])
    have e4 : (ieaRows2 t).length
        = (ieaRows1 t).countP (fun r => !(allMissing r)) :=
      (List.countP_eq_length_filter _ _).symm
    have e5 : (ieaRows1 t).countP allMissing
        + (ieaRows1 t).countP (fun r => !(allMissing r))
        = (ieaRows1 t).length := countP_split _ _
    have hmem2 : ∀ r ∈ ieaRows2 t, r ∈ t.rows := fun r hr =>
      (List.mem_filter.mp (List.mem_filter.mp hr).1).1
    have hwf2 : ∀ r ∈ ieaRows2 t, r.length = t.header.length :=
      fun r hr => hwf r (hmem2 r hr)
    have hwf3 : ∀ r3 ∈ (ieaT3 t).rows, r3.length = (ieaT3 t).header.length := by
      intro r3 hr3
      obtain ⟨r, hr, hrt⟩ := List.mem_map.mp hr3
      rw [← hrt]
      exact maskKeep_length_pair _ r t.header (hwf2 r hr)
    have e6 : (ieaT4 t).rows.countP
          (fun r => !((fieldD (ieaT4 t).header r "Date online").isMissing))
        = (ieaT3 t).rows.countP
          (fun r => !((fieldD (ieaT3 t).header r "Date online").isMissing)) :=
      countP_fieldD_dropCols ieaColsToDrop "Date online" (by decide)
        (ieaT3 t).header (ieaT3 t).rows hwf3 (fun v => !(v.isMissing))
    have e7 : (ieaT3 t).rows.countP
          (fun r => !((fieldD (ieaT3 t).header r "Date online").isMissing))
        = (ieaRows2 t).countP
          (fun r => !((fieldD t.header r "Date online").isMissing)) :=
      countP_fieldD_dropCols ["Refs"] "Date online" (by decide)
        t.header (ieaRows2 t) hwf2 (fun v => !(v.isMissing))
    have e8 : (requiredFieldDrop (ieaT4 t).header "Date online"
          (ieaT4 t).rows).length
        = (ieaT4 t).rows.countP
          (fun r => !((fieldD (ieaT4 t).header r "Date online").isMissing)) :=
      (List.countP_eq_length_filter _ _).symm
    have e9 : (ieaRows2 t).countP
          (fun r => (fieldD t.header r "Date online").isMissing)
        + (ieaRows2 t).countP
          (fun r => !((fieldD t.header r "Date online").isMissing))
        = (ieaRows2 t).length := countP_split _ _
    have e10 : (ieaRows2 t).countP
        (fun r => (fieldD t.header r "Date online").isMissing) = 1 := by
      have f1 : (ieaRows2 t).countP
            (fun r => (fieldD t.header r "Date online").isMissing)
          = (ieaRows1 t).countP (fun r =>
            (fieldD t.header r "Date online").isMissing && !(allMissing r)) :=
        List.countP_filter _ _ _
      have f2 : (ieaRows1 t).countP (fun r =>
            (fieldD t.header r "Date online").isMissing && !(allMissing r))
          = t.rows.countP (fun r =>
            ((fieldD t.header r "Date online").isMissing && !(allMissing r))
              && !(confMatch t.header r)) :=
        List.countP_filter _ _ _
      rw [f1, f2]
      exact hdomiss
    rw [e8, e6, e7]
    omega
  · intro hmem
    exact not_mem_maskKeep_dropMask ["Refs"] "Refs" (by decide) t.header
      (mem_of_mem_maskKeep "Refs" (ieaT3 t).header _ hmem)

/-- IEA example: one normal row, one confidential row, one all-empty row,
one row missing `Date online`, and one row with a missing `Refs` cell. -/
def exT9 : Table :=
  ⟨["Project name", "Date online", "Refs"],
   [[Val.str "Alpha", Val.num 2020, Val.str "x"],
    [Val.str "CONFIDENTIAL project", Val.num 2021, Val.str "y"],
    [Val.missing, Val.missing, Val.missing],
    [Val.str "Beta", Val.missing, Val.str "z"],
    [Val.str "Gamma", Val.num 2022, Val.missing]]⟩

/-- C9 witness: the end-to-end conclusion instantiated at the concrete
five-row IEA table (5 rows in, 2 rows out, no `Refs`). -/
theorem C9_witness :
    ∃ t2, cleanIEA exT9 = .ok t2 ∧ t2.rows.length = exT9.rows.length - 3 ∧
      "Refs" ∉ t2.header :=
  C9_clean_iea_end_to_end exT9 (by decide) (by decide) (by decide) (by decide)
    (by decide) (by decide)

end HydroClean
